import Mathlib

/-!
Verification development for the `pdf-docx` repository (a PyQt GUI tool that
converts PDF files to Word documents and back, file `src/main.py`).

The Python program is shallowly embedded below.  External effects
(`pdf2docx.Converter`, `pypdf.PdfReader`, `python-docx`, `win32com` Word
automation, the filesystem) are modelled by oracles: a `FileOracle` records,
for one input path, the outcome of every external call site that
`ConvertWorker` performs on that path, and an environment `ora : String →
FileOracle` fixes the behaviour of the outside world for each path.  The
worker's signal emissions (`progress`, `page_progress`, `result`) are
recorded as explicit traces.
-/

set_option linter.unusedVariables false

/-- The `direction` argument of `ConvertWorker`: the source only ever passes
the strings `'pdf_to_word'` and `'word_to_pdf'` (main.py line 479). -/
inductive Direction where
  | pdf_to_word
  | word_to_pdf
deriving DecidableEq

/-- The `mode` argument of `ConvertWorker`: `'normal'` or `'per_page'`
(main.py line 484).  The code tests `mode == 'normal'` and treats everything
else as per-page. -/
inductive Mode where
  | normal
  | per_page
deriving DecidableEq

/-- Outcomes of the external calls `ConvertWorker` makes for one input path.
`Except.error e` means the call raises an exception whose string form is `e`.

* `pdfPages` — `PdfReader(path)` followed by `len(reader.pages)` (used both in
  `__init__` and in `run`; the file's content is fixed, so both reads agree);
* `converterOpen` — `Converter(path)`;
* `convertAll` — `converter.convert(tmp_docx, start=0, end=None)` (normal mode);
* `convertPage p` — `converter.convert(tmp, start=p, end=p+1)` (per-page mode);
* `converterClose` — `converter.close()`;
* `mergeSave` — the `python-docx` merge loop, `os.remove` of the temporary
  files and `merged.save(tmp_docx)`;
* `docConvert` — the whole `win32com` DOCX→DOC block (lines 116-124);
* `wordSaveAsPdf` — the whole `win32com` Word→PDF block (lines 146-153). -/
structure FileOracle where
  pdfPages : Except String Nat
  converterOpen : Except String Unit
  convertAll : Except String Unit
  convertPage : Nat → Except String Unit
  converterClose : Except String Unit
  mergeSave : Except String Unit
  docConvert : Except String Unit
  wordSaveAsPdf : Except String Unit

/-- The constructor arguments of `ConvertWorker` (main.py lines 46-52),
plus the global fact whether `win32com` imported successfully (lines 16-19). -/
structure WorkerCfg where
  output_folder : String
  mode : Mode
  fmt : String
  direction : Direction
  win32com : Bool

/-- `os.path.basename` for forward-slash separated paths: the part after the
last separator. -/
def basename (p : String) : String :=
  (p.splitOn "/").getLastD ""

/-- Index of the last `'.'` in a list of characters, if any. -/
def rfindDot : List Char → Option Nat
  | [] => none
  | c :: cs =>
    match rfindDot cs with
    | some i => some (i + 1)
    | none => if c = '.' then some 0 else none

/-- `os.path.splitext` applied to a bare file name (the source only ever
applies it to results of `os.path.basename`): split before the last dot,
except that a name consisting only of leading dots before that dot gets no
extension. -/
def splitext (s : String) : String × String :=
  let cs := s.toList
  match rfindDot cs with
  | none => (s, "")
  | some d =>
    if (cs.take d).any (fun c => c ≠ '.') then
      ((cs.take d).asString, (cs.drop d).asString)
    else (s, "")

/-- `name = os.path.splitext(os.path.basename(path))[0]` (main.py line 71). -/
def stemOf (path : String) : String :=
  (splitext (basename path)).1

/-- Success entry `f"✅ {out_name}"` (main.py lines 126, 153). -/
def okMsg (out_name : String) : String :=
  "✅ " ++ out_name

/-- Failure entry `f"❌ {out_name} - 失敗：{e}"` (main.py lines 128, 155). -/
def failMsg (out_name e : String) : String :=
  "❌ " ++ out_name ++ " - 失敗：" ++ e

/-- The fixed message appended when `win32com` is unavailable in
`word_to_pdf` direction (main.py line 140). -/
def noWordMsg : String :=
  "需要安裝 Microsoft Word 和 pywin32 才能轉換 Word 到 PDF。"

/-- The output file name derived for a path (main.py lines 74, 136). -/
def outName (cfg : WorkerCfg) (path : String) : String :=
  match cfg.direction with
  | .pdf_to_word => stemOf path ++ "." ++ cfg.fmt
  | .word_to_pdf => stemOf path ++ ".pdf"

/-- Page count contributed by one file in the `__init__` page scan: the page
count if `PdfReader` succeeds, `0` if it raises (`except Exception: pass`,
main.py lines 58-62). -/
def pageCountOr0 (ora : String → FileOracle) (f : String) : Nat :=
  match (ora f).pdfPages with
  | .ok n => n
  | .error _ => 0

/-- `ConvertWorker.__init__` computation of `self.total_steps`
(main.py lines 53-64). -/
def ConvertWorker.total_steps (cfg : WorkerCfg) (ora : String → FileOracle)
    (files : List String) : Nat :=
  if cfg.direction = .pdf_to_word ∧ cfg.mode = .per_page then
    files.foldl (fun acc f => acc + pageCountOr0 ora f) 0
  else
    files.length

/-- Observable state threaded through `ConvertWorker.run`: the accumulated
`results` list, the `current_step` counter, and the values emitted so far on
the `progress` and `page_progress` signals. -/
structure RunState where
  results : List String
  current_step : Nat
  progressTrace : List Nat
  pageTrace : List Nat

/-- The per-page loop `for p in range(page_count)` (main.py lines 96-102):
returns the try-block outcome, the final `current_step`, and the list of
values emitted (each page emits the incremented step on both signals). -/
def pageLoop (o : FileOracle) : List Nat → Nat → Except String Unit × Nat × List Nat
  | [], step => (.ok (), step, [])
  | p :: ps, step =>
    match o.convertPage p with
    | .error e => (.error e, step, [])
    | .ok _ =>
      let rest := pageLoop o ps (step + 1)
      (rest.1, rest.2.1, (step + 1) :: rest.2.2)

/-- The DOCX→DOC post-processing step: executed only when the requested
format is `'doc'` and `win32com` is available (main.py line 116). -/
def docPhase (cfg : WorkerCfg) (o : FileOracle) : Except String Unit :=
  if cfg.fmt = "doc" ∧ cfg.win32com then o.docConvert else .ok ()

/-- Result of the `try` body of the `pdf_to_word` branch. -/
structure TryOut where
  outcome : Except String Unit
  step : Nat
  emits : List Nat

/-- The `try` body of the `pdf_to_word` branch of `ConvertWorker.run`
(main.py lines 78-126), given the entry value of `current_step`.  In normal
mode the conversion is followed by one progress emission (lines 86-87); in
per-page mode each page emits once (lines 100-102).  The optional DOCX→DOC
block runs after that emission. -/
def runPdfTry (cfg : WorkerCfg) (o : FileOracle) (step : Nat) : TryOut :=
  match cfg.mode with
  | .normal =>
    match o.converterOpen with
    | .error e => ⟨.error e, step, []⟩
    | .ok _ =>
      match o.convertAll with
      | .error e => ⟨.error e, step, []⟩
      | .ok _ =>
        match o.converterClose with
        | .error e => ⟨.error e, step, []⟩
        | .ok _ =>
          match docPhase cfg o with
          | .error e => ⟨.error e, step + 1, [step + 1]⟩
          | .ok _ => ⟨.ok (), step + 1, [step + 1]⟩
  | .per_page =>
    match o.pdfPages with
    | .error e => ⟨.error e, step, []⟩
    | .ok n =>
      match o.converterOpen with
      | .error e => ⟨.error e, step, []⟩
      | .ok _ =>
        match pageLoop o (List.range n) step with
        | (.error e, st, em) => ⟨.error e, st, em⟩
        | (.ok _, st, em) =>
          match o.converterClose with
          | .error e => ⟨.error e, st, em⟩
          | .ok _ =>
            match o.mergeSave with
            | .error e => ⟨.error e, st, em⟩
            | .ok _ =>
              match docPhase cfg o with
              | .error e => ⟨.error e, st, em⟩
              | .ok _ => ⟨.ok (), st, em⟩

/-- One iteration of the `for i, path in enumerate(self.files)` loop of
`ConvertWorker.run` (main.py lines 70-163).  On an exception in the
`pdf_to_word` try block the failure entry is appended and, in normal mode
only, `current_step` is incremented once more and emitted (lines 127-133).
The `word_to_pdf` branch appends its entry inside try/except and increments
and emits in the `finally` block (lines 135-163). -/
def runFile (cfg : WorkerCfg) (ora : String → FileOracle) (st : RunState)
    (path : String) : RunState :=
  let o := ora path
  match cfg.direction with
  | .pdf_to_word =>
    let out_name := stemOf path ++ "." ++ cfg.fmt
    let t := runPdfTry cfg o st.current_step
    match t.outcome with
    | .ok _ =>
      { results := st.results ++ [okMsg out_name]
        current_step := t.step
        progressTrace := st.progressTrace ++ t.emits
        pageTrace := st.pageTrace ++
          (match cfg.mode with | .per_page => t.emits | .normal => []) }
    | .error e =>
      match cfg.mode with
      | .normal =>
        { results := st.results ++ [failMsg out_name e]
          current_step := t.step + 1
          progressTrace := st.progressTrace ++ t.emits ++ [t.step + 1]
          pageTrace := st.pageTrace }
      | .per_page =>
        { results := st.results ++ [failMsg out_name e]
          current_step := t.step
          progressTrace := st.progressTrace ++ t.emits
          pageTrace := st.pageTrace ++ t.emits }
  | .word_to_pdf =>
    let out_name := stemOf path ++ ".pdf"
    if cfg.win32com then
      match o.wordSaveAsPdf with
      | .ok _ =>
        { results := st.results ++ [okMsg out_name]
          current_step := st.current_step + 1
          progressTrace := st.progressTrace ++ [st.current_step + 1]
          pageTrace := st.pageTrace }
      | .error e =>
        { results := st.results ++ [failMsg out_name e]
          current_step := st.current_step + 1
          progressTrace := st.progressTrace ++ [st.current_step + 1]
          pageTrace := st.pageTrace }
    else
      { results := st.results ++ [failMsg out_name noWordMsg]
        current_step := st.current_step + 1
        progressTrace := st.progressTrace ++ [st.current_step + 1]
        pageTrace := st.pageTrace }

/-- The whole `for` loop of `ConvertWorker.run`. -/
def ConvertWorker.runLoop (cfg : WorkerCfg) (ora : String → FileOracle)
    (files : List String) (st : RunState) : RunState :=
  files.foldl (runFile cfg ora) st

/-- State at entry of `ConvertWorker.run`: `results = []`, `current_step = 0`,
nothing emitted yet (main.py lines 68-69). -/
def initialRunState : RunState :=
  ⟨[], 0, [], []⟩

/-- `ConvertWorker.run`: the loop, followed by the unconditional
`self.progress.emit(self.total_steps)` (line 165); `self.result.emit(results)`
then publishes `results` unchanged (line 166). -/
def ConvertWorker.run (cfg : WorkerCfg) (ora : String → FileOracle)
    (files : List String) : RunState :=
  let st := ConvertWorker.runLoop cfg ora files initialRunState
  { st with progressTrace :=
      st.progressTrace ++ [ConvertWorker.total_steps cfg ora files] }

/-- The exception (if any) with which the try block for one file ends: the
exception caught by the `except` clause of the corresponding branch.  In
`word_to_pdf` direction without `win32com` no exception is raised (the
failure entry comes from an explicit `if`, line 139-143). -/
def fileError (cfg : WorkerCfg) (o : FileOracle) : Option String :=
  match cfg.direction with
  | .pdf_to_word =>
    match (runPdfTry cfg o 0).outcome with
    | .error e => some e
    | .ok _ => none
  | .word_to_pdf =>
    if cfg.win32com then
      match o.wordSaveAsPdf with
      | .error e => some e
      | .ok _ => none
    else none

/-- The single results entry produced for one file. -/
def fileEntry (cfg : WorkerCfg) (o : FileOracle) (path : String) : String :=
  match fileError cfg o with
  | some e => failMsg (outName cfg path) e
  | none =>
    match cfg.direction with
    | .pdf_to_word => okMsg (outName cfg path)
    | .word_to_pdf =>
      if cfg.win32com then okMsg (outName cfg path)
      else failMsg (outName cfg path) noWordMsg

example :
    (ConvertWorker.run ⟨"out", .normal, "docx", .pdf_to_word, true⟩
      (fun _ => ⟨.ok 3, .ok (), .ok (), fun _ => .ok (), .ok (), .ok (), .ok (), .ok ()⟩)
      ["a.pdf", "b.pdf"]).progressTrace = [1, 2, 2] := by
  rfl

example :
    (ConvertWorker.run ⟨"out", .per_page, "docx", .pdf_to_word, true⟩
      (fun _ => ⟨.ok 2, .ok (), .ok (), fun _ => .ok (), .ok (), .ok (), .ok (), .ok ()⟩)
      ["a.pdf"]).progressTrace = [1, 2, 2] := by
  rfl

example :
    (ConvertWorker.run ⟨"out", .normal, "doc", .pdf_to_word, true⟩
      (fun _ => ⟨.ok 1, .ok (), .ok (), fun _ => .ok (), .ok (), .ok (), .error "boom", .ok ()⟩)
      ["a.pdf"]).progressTrace = [1, 2, 1] := by
  rfl

/-- `true` iff the external call raised. -/
def isErr {ε α : Type} : Except ε α → Bool
  | .error _ => true
  | .ok _ => false

/-- Number of progress steps a file is budgeted for by `__init__`: its page
count in per-page PDF→Word conversion, `1` otherwise. -/
def contrib (cfg : WorkerCfg) (o : FileOracle) : Nat :=
  if cfg.direction = .pdf_to_word ∧ cfg.mode = .per_page then
    match o.pdfPages with
    | .ok n => n
    | .error _ => 0
  else 1

/-- The situation in which one file advances `current_step` twice: normal
PDF→Word conversion succeeds and emits (main.py lines 86-87), then the
DOCX→DOC post-processing raises, and the `except` clause increments and
emits again (lines 127-132). -/
def doublePhase (cfg : WorkerCfg) (o : FileOracle) : Bool :=
  decide (cfg.direction = .pdf_to_word) && decide (cfg.mode = .normal) &&
    !isErr o.converterOpen && !isErr o.convertAll && !isErr o.converterClose &&
    isErr (docPhase cfg o)

theorem pageLoop_outcome_indep (o : FileOracle) :
    ∀ (ps : List Nat) (s t : Nat), (pageLoop o ps s).1 = (pageLoop o ps t).1 := by
  intro ps
  induction ps with
  | nil => intro s t; rfl
  | cons p ps ih =>
    intro s t
    simp only [pageLoop]
    cases o.convertPage p with
    | error e => rfl
    | ok u => exact ih (s + 1) (t + 1)

theorem pageLoop_spec (o : FileOracle) :
    ∀ (ps : List Nat) (s : Nat), ∃ m out,
      pageLoop o ps s = (out, s + m, List.range' (s + 1) m) ∧
      m ≤ ps.length ∧ (out = .ok () → m = ps.length) := by
  intro ps
  induction ps with
  | nil =>
    intro s
    exact ⟨0, .ok (), by simp [pageLoop], by simp, fun _ => rfl⟩
  | cons p ps ih =>
    intro s
    cases hc : o.convertPage p with
    | error e =>
      refine ⟨0, .error e, ?_, by simp, by simp⟩
      simp [pageLoop, hc]
    | ok u =>
      obtain ⟨m, out, hp, hm, hok⟩ := ih (s + 1)
      refine ⟨m + 1, out, ?_, by simpa using Nat.succ_le_succ hm, ?_⟩
      · simp only [pageLoop, hc, hp]
        refine Prod.ext rfl (Prod.ext ?_ ?_)
        · simp; omega
        · simp [List.range'_succ]
      · intro h
        simp [hok h]

theorem runPdfTry_outcome_indep (cfg : WorkerCfg) (o : FileOracle) (s : Nat) :
    (runPdfTry cfg o s).outcome = (runPdfTry cfg o 0).outcome := by
  obtain ⟨of, mode, fmt, dir, w⟩ := cfg
  cases mode with
  | normal =>
    cases h1 : o.converterOpen with
    | error e => simp [runPdfTry, h1]
    | ok u =>
      cases h2 : o.convertAll with
      | error e => simp [runPdfTry, h1, h2]
      | ok u2 =>
        cases h3 : o.converterClose with
        | error e => simp [runPdfTry, h1, h2, h3]
        | ok u3 =>
          cases h4 : docPhase ⟨of, .normal, fmt, dir, w⟩ o with
          | error e => simp [runPdfTry, h1, h2, h3, h4]
          | ok u4 => simp [runPdfTry, h1, h2, h3, h4]
  | per_page =>
    cases h1 : o.pdfPages with
    | error e => simp [runPdfTry, h1]
    | ok n =>
      cases h2 : o.converterOpen with
      | error e => simp [runPdfTry, h1, h2]
      | ok u =>
        obtain ⟨m, out, hp, hm, hok⟩ := pageLoop_spec o (List.range n) s
        obtain ⟨m0, out0, hp0, hm0, hok0⟩ := pageLoop_spec o (List.range n) 0
        have houts : out = out0 := by
          have h := pageLoop_outcome_indep o (List.range n) s 0
          rw [hp, hp0] at h
          exact h
        cases houts
        simp only [runPdfTry, h1, h2, hp, hp0]
        cases out with
        | error e => rfl
        | ok u2 =>
          cases h3 : o.converterClose with
          | error e => rfl
          | ok u3 =>
            cases h4 : o.mergeSave with
            | error e => rfl
            | ok u4 =>
              cases h5 : docPhase ⟨of, .per_page, fmt, dir, w⟩ o with
              | error e => rfl
              | ok u5 => rfl

theorem runFile_results (cfg : WorkerCfg) (ora : String → FileOracle)
    (st : RunState) (p : String) :
    (runFile cfg ora st p).results = st.results ++ [fileEntry cfg (ora p) p] := by
  obtain ⟨of, mode, fmt, dir, w⟩ := cfg
  cases dir with
  | pdf_to_word =>
    have hind := runPdfTry_outcome_indep ⟨of, mode, fmt, .pdf_to_word, w⟩ (ora p) st.current_step
    cases ht : (runPdfTry ⟨of, mode, fmt, .pdf_to_word, w⟩ (ora p) st.current_step).outcome with
    | ok u =>
      rw [ht] at hind
      cases u
      simp [runFile, fileEntry, fileError, ht, ← hind, outName]
    | error e =>
      rw [ht] at hind
      cases mode with
      | normal => simp [runFile, fileEntry, fileError, ht, ← hind, outName]
      | per_page => simp [runFile, fileEntry, fileError, ht, ← hind, outName]
  | word_to_pdf =>
    cases w with
    | false => simp [runFile, fileEntry, fileError, outName]
    | true =>
      cases hw : (ora p).wordSaveAsPdf with
      | error e => simp [runFile, fileEntry, fileError, hw, outName]
      | ok u => simp [runFile, fileEntry, fileError, hw, outName]

theorem runLoop_results (cfg : WorkerCfg) (ora : String → FileOracle) :
    ∀ (files : List String) (st : RunState),
      (ConvertWorker.runLoop cfg ora files st).results =
        st.results ++ files.map (fun p => fileEntry cfg (ora p) p) := by
  intro files
  induction files with
  | nil => intro st; simp [ConvertWorker.runLoop]
  | cons p ps ih =>
    intro st
    have h1 : ConvertWorker.runLoop cfg ora (p :: ps) st =
        ConvertWorker.runLoop cfg ora ps (runFile cfg ora st p) := rfl
    rw [h1, ih, runFile_results]
    simp

theorem run_results (cfg : WorkerCfg) (ora : String → FileOracle) (files : List String) :
    (ConvertWorker.run cfg ora files).results =
      files.map (fun p => fileEntry cfg (ora p) p) := by
  show (ConvertWorker.runLoop cfg ora files initialRunState).results = _
  rw [runLoop_results]
  rfl

theorem chain'_le_range' : ∀ (k s : Nat), List.Chain' (· ≤ ·) (List.range' s k) := by
  intro k
  induction k with
  | zero => intro s; simp
  | succ k ih =>
    intro s
    rw [List.range'_succ]
    refine List.chain'_cons'.mpr ⟨?_, ih (s + 1)⟩
    intro y hy
    rcases k with _ | k
    · simp at hy
    · rw [List.range'_succ] at hy
      simp at hy
      omega

theorem mem_range'_le {x s k : Nat} (h : x ∈ List.range' (s + 1) k) :
    s + 1 ≤ x ∧ x ≤ s + k := by
  rw [List.mem_range'] at h
  obtain ⟨i, hi, rfl⟩ := h
  omega

/-- Per-file effect on `current_step` and the `progress` trace, assuming the
double-increment situation does not occur for this file: the file makes `k`
consecutive emissions `current_step+1, …, current_step+k` with
`k ≤ contrib cfg o`. -/
theorem runFile_step_trace (cfg : WorkerCfg) (ora : String → FileOracle)
    (st : RunState) (p : String) (hnd : doublePhase cfg (ora p) = false) :
    ∃ k, k ≤ contrib cfg (ora p) ∧
      (runFile cfg ora st p).current_step = st.current_step + k ∧
      (runFile cfg ora st p).progressTrace =
        st.progressTrace ++ List.range' (st.current_step + 1) k := by
  obtain ⟨of, mode, fmt, dir, w⟩ := cfg
  cases dir with
  | word_to_pdf =>
    refine ⟨1, by simp [contrib], ?_, ?_⟩ <;>
      cases w <;>
        cases hw : (ora p).wordSaveAsPdf <;>
          simp [runFile, contrib, hw]
  | pdf_to_word =>
    cases mode with
    | normal =>
      cases h1 : (ora p).converterOpen with
      | error e =>
        refine ⟨1, by simp [contrib], ?_, ?_⟩ <;> simp [runFile, runPdfTry, h1]
      | ok u =>
        cases h2 : (ora p).convertAll with
        | error e =>
          refine ⟨1, by simp [contrib], ?_, ?_⟩ <;> simp [runFile, runPdfTry, h1, h2]
        | ok u2 =>
          cases h3 : (ora p).converterClose with
          | error e =>
            refine ⟨1, by simp [contrib], ?_, ?_⟩ <;>
              simp [runFile, runPdfTry, h1, h2, h3]
          | ok u3 =>
            cases h4 : docPhase ⟨of, .normal, fmt, .pdf_to_word, w⟩ (ora p) with
            | error e =>
              exfalso
              simp [doublePhase, isErr, h1, h2, h3, h4] at hnd
            | ok u4 =>
              refine ⟨1, by simp [contrib], ?_, ?_⟩ <;>
                simp [runFile, runPdfTry, h1, h2, h3, h4]
    | per_page =>
      cases h1 : (ora p).pdfPages with
      | error e =>
        refine ⟨0, by simp [contrib, h1], ?_, ?_⟩ <;>
          simp [runFile, runPdfTry, h1]
      | ok n =>
        cases h2 : (ora p).converterOpen with
        | error e =>
          refine ⟨0, by simp [contrib, h1], ?_, ?_⟩ <;>
            simp [runFile, runPdfTry, h1, h2]
        | ok u =>
          obtain ⟨m, out, hp, hm, hok⟩ :=
            pageLoop_spec (ora p) (List.range n) st.current_step
          rw [List.length_range] at hm
          refine ⟨m, by simp [contrib, h1]; exact hm, ?_, ?_⟩ <;>
            (cases out with
              | error e => simp [runFile, runPdfTry, h1, h2, hp]
              | ok u2 =>
                cases h3 : (ora p).converterClose with
                | error e => simp [runFile, runPdfTry, h1, h2, hp, h3]
                | ok u3 =>
                  cases h4 : (ora p).mergeSave with
                  | error e => simp [runFile, runPdfTry, h1, h2, hp, h3, h4]
                  | ok u4 =>
                    cases h5 : docPhase ⟨of, .per_page, fmt, .pdf_to_word, w⟩ (ora p) with
                    | error e => simp [runFile, runPdfTry, h1, h2, hp, h3, h4, h5]
                    | ok u5 => simp [runFile, runPdfTry, h1, h2, hp, h3, h4, h5])

theorem foldl_add_eq_sum {α : Type} (g : α → Nat) :
    ∀ (l : List α) (a : Nat), l.foldl (fun acc x => acc + g x) a = a + (l.map g).sum := by
  intro l
  induction l with
  | nil => intro a; simp
  | cons x xs ih =>
    intro a
    simp [ih (a + g x)]
    omega

theorem total_steps_eq_sum (cfg : WorkerCfg) (ora : String → FileOracle)
    (files : List String) :
    ConvertWorker.total_steps cfg ora files =
      (files.map (fun p => contrib cfg (ora p))).sum := by
  unfold ConvertWorker.total_steps
  by_cases h : cfg.direction = .pdf_to_word ∧ cfg.mode = .per_page
  · rw [if_pos h, foldl_add_eq_sum]
    simp only [Nat.zero_add]
    congr 1
    apply List.map_congr_left
    intro p _
    simp [pageCountOr0, contrib, h]
  · rw [if_neg h]
    have hmap : (files.map (fun p => contrib cfg (ora p))) =
        files.map (fun _ => 1) := by
      apply List.map_congr_left
      intro p _
      simp [contrib, if_neg h]
    rw [hmap]
    induction files with
    | nil => rfl
    | cons q qs ihq => simp at ihq ⊢; omega

/-- Loop invariant: provided no file hits the double-increment situation, the
trace stays a nondecreasing chain of values bounded by `current_step`, and
`current_step` grows by at most the files' total contribution. -/
theorem runLoop_trace_inv (cfg : WorkerCfg) (ora : String → FileOracle) :
    ∀ (files : List String) (st : RunState),
      (∀ p ∈ files, doublePhase cfg (ora p) = false) →
      List.Chain' (· ≤ ·) st.progressTrace →
      (∀ x ∈ st.progressTrace, x ≤ st.current_step) →
      List.Chain' (· ≤ ·) (ConvertWorker.runLoop cfg ora files st).progressTrace ∧
      (∀ x ∈ (ConvertWorker.runLoop cfg ora files st).progressTrace,
        x ≤ (ConvertWorker.runLoop cfg ora files st).current_step) ∧
      (ConvertWorker.runLoop cfg ora files st).current_step ≤
        st.current_step + (files.map (fun p => contrib cfg (ora p))).sum := by
  intro files
  induction files with
  | nil =>
    intro st hnd hc hb
    exact ⟨hc, hb, by simp [ConvertWorker.runLoop]⟩
  | cons p ps ih =>
    intro st hnd hc hb
    obtain ⟨k, hk, hstep, htr⟩ :=
      runFile_step_trace cfg ora st p (hnd p (List.mem_cons_self p ps))
    have hloop : ConvertWorker.runLoop cfg ora (p :: ps) st =
        ConvertWorker.runLoop cfg ora ps (runFile cfg ora st p) := rfl
    have hc' : List.Chain' (· ≤ ·) (runFile cfg ora st p).progressTrace := by
      rw [htr]
      refine List.Chain'.append hc (chain'_le_range' k (st.current_step + 1)) ?_
      intro x hx y hy
      have hxa : x ∈ st.progressTrace := List.mem_of_mem_getLast? hx
      have hya := List.mem_of_mem_head? hy
      have := hb x hxa
      have := (mem_range'_le hya).1
      omega
    have hb' : ∀ x ∈ (runFile cfg ora st p).progressTrace,
        x ≤ (runFile cfg ora st p).current_step := by
      rw [htr, hstep]
      intro x hx
      rcases List.mem_append.mp hx with hx1 | hx2
      · have := hb x hx1; omega
      · have := (mem_range'_le hx2).2; omega
    have hnd' : ∀ q ∈ ps, doublePhase cfg (ora q) = false := by
      intro q hq
      exact hnd q (List.mem_cons_of_mem p hq)
    obtain ⟨h1, h2, h3⟩ := ih (runFile cfg ora st p) hnd' hc' hb'
    rw [hloop]
    refine ⟨h1, h2, ?_⟩
    rw [hstep] at h3
    simp only [List.map_cons, List.sum_cons]
    omega

theorem fileEntry_cases (cfg : WorkerCfg) (o : FileOracle) (p : String) :
    fileEntry cfg o p = okMsg (outName cfg p) ∨
      ∃ e, fileEntry cfg o p = failMsg (outName cfg p) e := by
  unfold fileEntry
  cases hfe : fileError cfg o with
  | some e => exact Or.inr ⟨e, rfl⟩
  | none =>
    cases cfg.direction with
    | pdf_to_word => exact Or.inl rfl
    | word_to_pdf =>
      by_cases hw : cfg.win32com
      · simp only [hw]
        exact Or.inl (by simp)
      · simp only [hw]
        exact Or.inr ⟨noWordMsg, by simp⟩

/-- C1: if an exception is raised while converting a given file inside
`ConvertWorker.run`, it is caught, its string form is embedded in the failure
entry appended for that file, and the loop still processes every file (the
emitted results list has one entry per input file). -/
theorem C1_exception_caught_loop_continues (cfg : WorkerCfg)
    (ora : String → FileOracle) (files : List String) (i : Nat) (p e : String)
    (hp : files.get? i = some p) (hraise : fileError cfg (ora p) = some e) :
    (ConvertWorker.run cfg ora files).results.length = files.length ∧
    (ConvertWorker.run cfg ora files).results.get? i =
      some (failMsg (outName cfg p) e) := by
  have hres := run_results cfg ora files
  constructor
  · rw [hres, List.length_map]
  · rw [hres, List.get?_map, hp]
    simp [fileEntry, hraise]

/-- C1 witness: a concrete run in which opening the PDF converter raises. -/
def convFailOracle : FileOracle :=
  ⟨.ok 1, .error "open failed", .ok (), fun _ => .ok (), .ok (), .ok (), .ok (), .ok ()⟩

def cfgNormalDocx : WorkerCfg :=
  ⟨"out", .normal, "docx", .pdf_to_word, true⟩

theorem C1_witness :
    (["a.pdf"].get? 0 = some "a.pdf") ∧
    (fileError cfgNormalDocx ((fun _ => convFailOracle) "a.pdf") = some "open failed") ∧
    ((ConvertWorker.run cfgNormalDocx (fun _ => convFailOracle) ["a.pdf"]).results.length =
        ["a.pdf"].length ∧
      (ConvertWorker.run cfgNormalDocx (fun _ => convFailOracle) ["a.pdf"]).results.get? 0 =
        some (failMsg (outName cfgNormalDocx "a.pdf") "open failed")) :=
  ⟨rfl, rfl,
    C1_exception_caught_loop_continues cfgNormalDocx (fun _ => convFailOracle)
      ["a.pdf"] 0 "a.pdf" "open failed" rfl rfl⟩

/-- C2: the list emitted on the `result` signal has exactly one entry per
input file, in input order, and the entry at position `i` is either the
success string or a failure string for the `i`-th file's output name — for
every direction, mode, and `win32com` availability. -/
theorem C2_one_entry_per_file (cfg : WorkerCfg) (ora : String → FileOracle)
    (files : List String) (i : Nat) (p : String) (hp : files.get? i = some p) :
    (ConvertWorker.run cfg ora files).results.length = files.length ∧
    ((ConvertWorker.run cfg ora files).results.get? i =
        some (okMsg (outName cfg p)) ∨
      ∃ e, (ConvertWorker.run cfg ora files).results.get? i =
        some (failMsg (outName cfg p) e)) := by
  have hres := run_results cfg ora files
  constructor
  · rw [hres, List.length_map]
  · rw [hres, List.get?_map, hp]
    rcases fileEntry_cases cfg (ora p) p with hE | ⟨e, hE⟩
    · exact Or.inl (by simp [hE])
    · exact Or.inr ⟨e, by simp [hE]⟩

/-- An environment in which every external call succeeds and every PDF has
`n` pages. -/
def allOkOracle (n : Nat) : FileOracle :=
  ⟨.ok n, .ok (), .ok (), fun _ => .ok (), .ok (), .ok (), .ok (), .ok ()⟩

theorem C2_witness :
    (["a.pdf"].get? 0 = some "a.pdf") ∧
    ((ConvertWorker.run cfgNormalDocx (fun _ => allOkOracle 1) ["a.pdf"]).results.length =
        ["a.pdf"].length ∧
      ((ConvertWorker.run cfgNormalDocx (fun _ => allOkOracle 1) ["a.pdf"]).results.get? 0 =
          some (okMsg (outName cfgNormalDocx "a.pdf")) ∨
        ∃ e, (ConvertWorker.run cfgNormalDocx (fun _ => allOkOracle 1) ["a.pdf"]).results.get? 0 =
          some (failMsg (outName cfgNormalDocx "a.pdf") e))) :=
  ⟨rfl, C2_one_entry_per_file cfgNormalDocx (fun _ => allOkOracle 1) ["a.pdf"] 0 "a.pdf" rfl⟩

/-- C5: results accumulation is append-only — each loop iteration appends
exactly one new entry at the end of the previous results list (so no earlier
entry is modified or removed), and the final `result.emit` publishes the
accumulated list unchanged. -/
theorem C5_results_append_only (cfg : WorkerCfg) (ora : String → FileOracle) :
    (∀ (st : RunState) (p : String), ∃ entry,
      (runFile cfg ora st p).results = st.results ++ [entry]) ∧
    (∀ files, (ConvertWorker.run cfg ora files).results =
      (ConvertWorker.runLoop cfg ora files initialRunState).results) :=
  ⟨fun st p => ⟨fileEntry cfg (ora p) p, runFile_results cfg ora st p⟩,
    fun files => rfl⟩

/-- C9: `ConvertWorker.__init__` sets `total_steps` to the sum of the page
counts of the files `PdfReader` can open (unreadable files contribute zero)
in per-page PDF→Word conversion, and to the number of input files in every
other direction/mode combination. -/
theorem C9_total_steps_value (cfg : WorkerCfg) (ora : String → FileOracle)
    (files : List String) :
    ConvertWorker.total_steps cfg ora files =
      if cfg.direction = .pdf_to_word ∧ cfg.mode = .per_page then
        (files.map (fun f =>
          match (ora f).pdfPages with
          | .ok n => n
          | .error _ => 0)).sum
      else
        files.length := by
  unfold ConvertWorker.total_steps
  by_cases h : cfg.direction = .pdf_to_word ∧ cfg.mode = .per_page
  · rw [if_pos h, if_pos h, foldl_add_eq_sum]
    simp only [Nat.zero_add]
    rfl
  · rw [if_neg h, if_neg h]

/-- Environment for the C4 counterexample: normal-mode conversion of the PDF
succeeds (and emits progress), then the DOCX→DOC post-processing raises. -/
def docFailOracle : FileOracle :=
  ⟨.ok 1, .ok (), .ok (), fun _ => .ok (), .ok (), .ok (), .error "COM error", .ok ()⟩

def cfgDocNormal : WorkerCfg :=
  ⟨"out", .normal, "doc", .pdf_to_word, true⟩

/-- C4 (counterexample): with one file, normal PDF→Word mode, format `doc`
and `win32com` available, a failure of the DOCX→DOC post-processing makes the
worker emit `1, 2` and finally `total_steps = 1`: the emitted sequence
`[1, 2, 1]` both exceeds `total_steps` and decreases, refuting the claim. -/
theorem C4_counterexample_doc_postprocess :
    (ConvertWorker.run cfgDocNormal (fun _ => docFailOracle) ["a.pdf"]).progressTrace =
      [1, 2, 1] ∧
    ConvertWorker.total_steps cfgDocNormal (fun _ => docFailOracle) ["a.pdf"] = 1 ∧
    ¬ (List.Chain' (· ≤ ·)
        (ConvertWorker.run cfgDocNormal (fun _ => docFailOracle) ["a.pdf"]).progressTrace ∧
      ∀ x ∈ (ConvertWorker.run cfgDocNormal (fun _ => docFailOracle) ["a.pdf"]).progressTrace,
        x ≤ ConvertWorker.total_steps cfgDocNormal (fun _ => docFailOracle) ["a.pdf"]) := by
  have htrace : (ConvertWorker.run cfgDocNormal (fun _ => docFailOracle) ["a.pdf"]).progressTrace
      = [1, 2, 1] := rfl
  have htot : ConvertWorker.total_steps cfgDocNormal (fun _ => docFailOracle) ["a.pdf"] = 1 := rfl
  refine ⟨htrace, htot, ?_⟩
  rintro ⟨hchain, hbound⟩
  have h2 : (2 : Nat) ∈
      (ConvertWorker.run cfgDocNormal (fun _ => docFailOracle) ["a.pdf"]).progressTrace := by
    rw [htrace]; simp
  have hle := hbound 2 h2
  rw [htot] at hle
  omega

/-- C4 (amended): the sequence of values emitted on the `progress` signal,
including the final emission of `total_steps`, is monotonically nondecreasing
and never exceeds `total_steps`, provided no file hits the double-increment
situation (a normal-mode PDF→Word conversion whose DOCX→DOC post-processing
raises after the conversion's own progress emission). -/
theorem C4_progress_monotone_bounded_amended (cfg : WorkerCfg)
    (ora : String → FileOracle) (files : List String)
    (hnd : ∀ p ∈ files, doublePhase cfg (ora p) = false) :
    List.Chain' (· ≤ ·) (ConvertWorker.run cfg ora files).progressTrace ∧
    ∀ x ∈ (ConvertWorker.run cfg ora files).progressTrace,
      x ≤ ConvertWorker.total_steps cfg ora files := by
  obtain ⟨h1, h2, h3⟩ := runLoop_trace_inv cfg ora files initialRunState hnd
    (by simp [initialRunState]) (by simp [initialRunState])
  have hstep : (ConvertWorker.runLoop cfg ora files initialRunState).current_step ≤
      ConvertWorker.total_steps cfg ora files := by
    rw [total_steps_eq_sum]
    simpa [initialRunState] using h3
  have hrun : (ConvertWorker.run cfg ora files).progressTrace =
      (ConvertWorker.runLoop cfg ora files initialRunState).progressTrace ++
        [ConvertWorker.total_steps cfg ora files] := rfl
  constructor
  · rw [hrun]
    refine List.Chain'.append h1 (List.chain'_singleton _) ?_
    intro x hx y hy
    have hxm := List.mem_of_mem_getLast? hx
    simp only [List.head?_cons, Option.mem_def, Option.some.injEq] at hy
    have := h2 x hxm
    omega
  · rw [hrun]
    intro x hx
    rcases List.mem_append.mp hx with hx1 | hx2
    · have := h2 x hx1
      omega
    · simp at hx2
      omega

theorem C4_amended_witness :
    (∀ p ∈ ["a.pdf"], doublePhase cfgNormalDocx ((fun _ => allOkOracle 1) p) = false) ∧
    (List.Chain' (· ≤ ·)
        (ConvertWorker.run cfgNormalDocx (fun _ => allOkOracle 1) ["a.pdf"]).progressTrace ∧
      ∀ x ∈ (ConvertWorker.run cfgNormalDocx (fun _ => allOkOracle 1) ["a.pdf"]).progressTrace,
        x ≤ ConvertWorker.total_steps cfgNormalDocx (fun _ => allOkOracle 1) ["a.pdf"]) :=
  ⟨by decide,
    C4_progress_monotone_bounded_amended cfgNormalDocx (fun _ => allOkOracle 1)
      ["a.pdf"] (by decide)⟩

/-- The window state touched by `PDFConverterApp.convert_files`
(main.py lines 470-528): selected files, output folder, progress-bar value
and maximum, the per-page page total, and two button-enabled flags. -/
structure UIState where
  file_paths : List String
  output_folder : String
  progressValue : Nat
  progressMaximum : Nat
  total_pages : Nat
  show_progress_enabled : Bool
  open_enabled : Bool
deriving DecidableEq

/-- `PDFConverterApp.convert_files` (main.py lines 470-528): warn and return
unchanged when no file is selected or the output folder is not a directory;
otherwise set up the progress bar and start a `ConvertWorker` with the
current selection.  `isdir` models `os.path.isdir`; `pdfToWordChecked` and
`normalChecked` model the two radio-button groups; `fmtSel` models
`self.format_combo.currentText()`. -/
def PDFConverterApp.convert_files (isdir : String → Bool)
    (ora : String → FileOracle) (win32 : Bool)
    (pdfToWordChecked : Bool) (normalChecked : Bool) (fmtSel : String)
    (s : UIState) : UIState × Option (WorkerCfg × List String) :=
  if s.file_paths = [] then (s, none)
  else if isdir s.output_folder = false then (s, none)
  else
    let direction := if pdfToWordChecked then Direction.pdf_to_word else Direction.word_to_pdf
    let prepared : UIState × Mode × String :=
      match direction with
      | .pdf_to_word =>
        let mode := if normalChecked then Mode.normal else Mode.per_page
        if mode = .per_page then
          let tp := s.file_paths.foldl (fun acc f => acc + pageCountOr0 ora f) 0
          ({ s with
              total_pages := tp
              progressMaximum := tp
              show_progress_enabled := true }, mode, fmtSel)
        else
          ({ s with
              total_pages := 0
              progressMaximum := s.file_paths.length
              show_progress_enabled := false }, mode, fmtSel)
      | .word_to_pdf =>
        ({ s with
            total_pages := 0
            progressMaximum := s.file_paths.length
            show_progress_enabled := false }, Mode.normal, "pdf")
    let s2 : UIState := { prepared.1 with progressValue := 0, open_enabled := false }
    (s2, some (⟨s2.output_folder, prepared.2.1, prepared.2.2, direction, win32⟩,
      s2.file_paths))

/-- The sequence of values the progress bar receives during one conversion:
in per-page PDF→Word mode the bar is connected to the `page_progress` signal
(main.py line 519), otherwise to the `progress` signal (line 521); when the
`result` signal arrives, `convert_finished` sets the bar to its maximum
(line 552). -/
def barTrace (cfg : WorkerCfg) (ora : String → FileOracle) (files : List String)
    (maximum : Nat) : List Nat :=
  (if cfg.direction = .pdf_to_word ∧ cfg.mode = .per_page then
    (ConvertWorker.run cfg ora files).pageTrace
  else
    (ConvertWorker.run cfg ora files).progressTrace) ++ [maximum]

/-- C3: in every run the last value emitted on the `progress` signal equals
`total_steps`; whenever `convert_files` starts a worker the progress bar's
maximum equals that worker's `total_steps` (and, in per-page mode, the
precomputed total page count); and the value driving the bar reaches that
maximum, since `convert_finished` sets the bar to its maximum when the
`result` signal arrives. -/
theorem C3_progress_reaches_maximum (isdir : String → Bool)
    (ora : String → FileOracle) (win32 pdfToWordChecked normalChecked : Bool)
    (fmtSel : String) (s s2 : UIState) (cfg : WorkerCfg) (files : List String)
    (hstart : PDFConverterApp.convert_files isdir ora win32 pdfToWordChecked
      normalChecked fmtSel s = (s2, some (cfg, files))) :
    (ConvertWorker.run cfg ora files).progressTrace.getLast? =
      some (ConvertWorker.total_steps cfg ora files) ∧
    s2.progressMaximum = ConvertWorker.total_steps cfg ora files ∧
    (cfg.direction = .pdf_to_word ∧ cfg.mode = .per_page →
      s2.total_pages = s2.progressMaximum) ∧
    (barTrace cfg ora files s2.progressMaximum).getLast? = some s2.progressMaximum := by
  have hlast : (ConvertWorker.run cfg ora files).progressTrace.getLast? =
      some (ConvertWorker.total_steps cfg ora files) := by
    show ((ConvertWorker.runLoop cfg ora files initialRunState).progressTrace ++
      [ConvertWorker.total_steps cfg ora files]).getLast? = _
    exact List.getLast?_concat _
  refine ⟨hlast, ?_⟩
  by_cases hfp : s.file_paths = []
  · simp [PDFConverterApp.convert_files, hfp] at hstart
  · cases hdir : isdir s.output_folder with
    | false => simp [PDFConverterApp.convert_files, hfp, hdir] at hstart
    | true =>
      cases pdfToWordChecked with
      | true =>
        cases normalChecked with
        | true =>
          simp [PDFConverterApp.convert_files, hfp, hdir] at hstart
          obtain ⟨hs2, hcfg, hfiles⟩ := hstart
          subst hs2 hcfg hfiles
          refine ⟨?_, ?_, ?_⟩
          · simp [ConvertWorker.total_steps]
          · rintro ⟨_, hmode⟩
            simp at hmode
          · exact List.getLast?_concat _
        | false =>
          simp [PDFConverterApp.convert_files, hfp, hdir] at hstart
          obtain ⟨hs2, hcfg, hfiles⟩ := hstart
          subst hs2 hcfg hfiles
          refine ⟨?_, ?_, ?_⟩
          · simp [ConvertWorker.total_steps]
          · intro _
            rfl
          · exact List.getLast?_concat _
      | false =>
        simp [PDFConverterApp.convert_files, hfp, hdir] at hstart
        obtain ⟨hs2, hcfg, hfiles⟩ := hstart
        subst hs2 hcfg hfiles
        refine ⟨?_, ?_, ?_⟩
        · simp [ConvertWorker.total_steps]
        · rintro ⟨hdirx, _⟩
          simp at hdirx
        · exact List.getLast?_concat _

def uiS0 : UIState :=
  ⟨["a.pdf"], "out", 0, 0, 0, false, false⟩

def uiS2 : UIState :=
  ⟨["a.pdf"], "out", 0, 2, 2, true, false⟩

def cfgPerPage : WorkerCfg :=
  ⟨"out", .per_page, "docx", .pdf_to_word, true⟩

theorem C3_witness :
    (PDFConverterApp.convert_files (fun _ => true) (fun _ => allOkOracle 2) true
        true false "docx" uiS0 =
      (uiS2, some (cfgPerPage, ["a.pdf"]))) ∧
    ((ConvertWorker.run cfgPerPage (fun _ => allOkOracle 2)
        ["a.pdf"]).progressTrace.getLast? =
      some (ConvertWorker.total_steps cfgPerPage (fun _ => allOkOracle 2) ["a.pdf"]) ∧
      uiS2.progressMaximum =
        ConvertWorker.total_steps cfgPerPage (fun _ => allOkOracle 2) ["a.pdf"] ∧
      (cfgPerPage.direction = .pdf_to_word ∧ cfgPerPage.mode = .per_page →
        uiS2.total_pages = uiS2.progressMaximum) ∧
      (barTrace cfgPerPage (fun _ => allOkOracle 2) ["a.pdf"]
          uiS2.progressMaximum).getLast? = some uiS2.progressMaximum) :=
  ⟨rfl, C3_progress_reaches_maximum (fun _ => true) (fun _ => allOkOracle 2) true
    true false "docx" uiS0 uiS2 cfgPerPage ["a.pdf"] rfl⟩

/-- C6: `convert_files` starts a worker exactly when at least one file is
selected and the chosen output folder is a directory; otherwise it only shows
a warning and returns with the whole window state unchanged. -/
theorem C6_convert_files_guard (isdir : String → Bool)
    (ora : String → FileOracle) (win32 pdfToWordChecked normalChecked : Bool)
    (fmtSel : String) (s : UIState) :
    ((PDFConverterApp.convert_files isdir ora win32 pdfToWordChecked
        normalChecked fmtSel s).2.isSome = true ↔
      (s.file_paths ≠ [] ∧ isdir s.output_folder = true)) ∧
    ((PDFConverterApp.convert_files isdir ora win32 pdfToWordChecked
        normalChecked fmtSel s).2 = none →
      (PDFConverterApp.convert_files isdir ora win32 pdfToWordChecked
        normalChecked fmtSel s).1 = s) := by
  by_cases hfp : s.file_paths = []
  · simp [PDFConverterApp.convert_files, hfp]
  · cases hdir : isdir s.output_folder with
    | false => simp [PDFConverterApp.convert_files, hfp, hdir]
    | true => simp [PDFConverterApp.convert_files, hfp, hdir]

theorem C6_witness :
    ((PDFConverterApp.convert_files (fun _ => false) (fun _ => allOkOracle 1) true
        true true "docx" uiS0).2.isSome = true ↔
      (uiS0.file_paths ≠ [] ∧ (fun (_ : String) => false) uiS0.output_folder = true)) ∧
    ((PDFConverterApp.convert_files (fun _ => false) (fun _ => allOkOracle 1) true
        true true "docx" uiS0).2 = none →
      (PDFConverterApp.convert_files (fun _ => false) (fun _ => allOkOracle 1) true
        true true "docx" uiS0).1 = uiS0) :=
  C6_convert_files_guard (fun _ => false) (fun _ => allOkOracle 1) true
    true true "docx" uiS0

/-- One row of the `QListWidget`: the displayed text and the full path stored
via `setData(Qt.ItemDataRole.UserRole, f)` (main.py lines 400-401). -/
structure ListItem where
  text : String
  data : String
deriving DecidableEq

/-- The file-selection state of `PDFConverterApp`: the `file_paths` list and
the rows of the list widget. -/
structure FilesState where
  file_paths : List String
  items : List ListItem
deriving DecidableEq

def emptyFilesState : FilesState :=
  ⟨[], []⟩

/-- Candidate display name `f"{name_parts[0]}({counter}){name_parts[1]}"`
(main.py line 397). -/
def numberedName (original : String) (n : Nat) : String :=
  (splitext original).1 ++ "(" ++ Nat.repr n ++ ")" ++ (splitext original).2

/-- The `while display_file_name in existing_display_names` loop (main.py
lines 394-398), run with explicit fuel; the loop in the source always
terminates because candidate names for distinct counters are distinct, and
`freshLoop_found` below shows the fuel used by `freshDisplay` suffices. -/
def freshLoop (original : String) (existing : List String) : Nat → Nat → String
  | counter, 0 => numberedName original counter
  | counter, fuel + 1 =>
    if numberedName original counter ∈ existing then
      freshLoop original existing (counter + 1) fuel
    else
      numberedName original counter

/-- The display name chosen for a new file given the display names already in
the widget (main.py lines 386-398): the original base name if it does not
collide, else the first `name(counter)ext` that does not collide, counting
from 1. -/
def freshDisplay (original : String) (existing : List String) : String :=
  if original ∈ existing then freshLoop original existing 1 (existing.length + 1)
  else original

/-- The body of the `for f in files` loop of `add_files_to_list` (main.py
lines 382-403): skip paths already selected, otherwise compute a fresh
display name and append one widget row storing the full path. -/
def addOneFile (s : FilesState) (f : String) : FilesState :=
  if f ∈ s.file_paths then s
  else
    { file_paths := s.file_paths ++ [f]
      items := s.items ++ [⟨freshDisplay (basename f) (s.items.map ListItem.text), f⟩] }

/-- `PDFConverterApp.add_files_to_list` (main.py lines 376-406). -/
def PDFConverterApp.add_files_to_list (s : FilesState) (files : List String) : FilesState :=
  files.foldl addOneFile s

/-- The rows of `selectedItems()`, modelled as the rows whose index satisfies
the selection predicate, in row order. -/
def selectedOf (sel : Nat → Bool) : Nat → List ListItem → List ListItem
  | _, [] => []
  | i, it :: rest =>
    if sel i then it :: selectedOf sel (i + 1) rest
    else selectedOf sel (i + 1) rest

/-- The rows remaining in the widget after `takeItem` removed every selected
row. -/
def remainingOf (sel : Nat → Bool) : Nat → List ListItem → List ListItem
  | _, [] => []
  | i, it :: rest =>
    if sel i then remainingOf sel (i + 1) rest
    else it :: remainingOf sel (i + 1) rest

/-- The `for item in selected_items` loop acting on `self.file_paths`
(main.py lines 419-422): for each selected row, if its stored path is in
`file_paths`, remove (the first occurrence of) that path. -/
def removePathsOf (selItems : List ListItem) (fps : List String) : List String :=
  selItems.foldl
    (fun acc it => if it.data ∈ acc then acc.erase it.data else acc) fps

/-- `PDFConverterApp.remove_selected_files` after the user confirms (main.py
lines 408-424); with an empty selection the state is unchanged, matching the
early return at line 411-413. -/
def PDFConverterApp.remove_selected_files (sel : Nat → Bool) (s : FilesState) : FilesState :=
  { file_paths := removePathsOf (selectedOf sel 0 s.items) s.file_paths
    items := remainingOf sel 0 s.items }

/-- `PDFConverterApp.clear_all_files` after confirmation (main.py lines
439-440): both the paths and the widget are cleared. -/
def PDFConverterApp.clear_all_files (s : FilesState) : FilesState :=
  ⟨[], []⟩

/-- Python `str.lower()`: lower-case each character. -/
def pyLower (s : String) : String :=
  (s.toList.map Char.toLower).asString

/-- Python `str.endswith(post)`. -/
def pyEndsWith (s post : String) : Bool :=
  post.toList.isSuffixOf s.toList

/-- The extension filter applied by `dropEvent` (main.py lines 574-577):
`path.lower().endswith(...)` for the extensions of the current direction. -/
def extMatches (direction : Direction) (path : String) : Bool :=
  match direction with
  | .pdf_to_word => pyEndsWith (pyLower path) ".pdf"
  | .word_to_pdf =>
    pyEndsWith (pyLower path) ".docx" || pyEndsWith (pyLower path) ".doc"

/-- `PDFConverterApp.dropEvent` (main.py lines 567-581): keep the dropped
local-file paths whose extension matches the current direction and add them. -/
def PDFConverterApp.dropEvent (direction : Direction) (s : FilesState)
    (urls : List String) : FilesState :=
  let files_to_add := urls.filter (extMatches direction)
  if files_to_add = [] then s
  else PDFConverterApp.add_files_to_list s files_to_add

/-- The operations that modify the file selection. -/
inductive FileOp where
  | add (files : List String)
  | drop (direction : Direction) (urls : List String)
  | removeSelected (sel : Nat → Bool)
  | clearAll

def applyOp (s : FilesState) : FileOp → FilesState
  | .add files => PDFConverterApp.add_files_to_list s files
  | .drop direction urls => PDFConverterApp.dropEvent direction s urls
  | .removeSelected sel => PDFConverterApp.remove_selected_files sel s
  | .clearAll => PDFConverterApp.clear_all_files s

/-- States reachable from the initial (empty) selection by any sequence of
add / drag-and-drop / remove-selected / clear-all operations. -/
def applyOps (ops : List FileOp) : FilesState :=
  ops.foldl applyOp emptyFilesState

/-- Synchronisation invariant: the widget rows store exactly the selected
paths, in order, and the selected paths are pairwise distinct. -/
def goodState (s : FilesState) : Prop :=
  s.file_paths.Nodup ∧ s.items.map ListItem.data = s.file_paths

theorem toDigitsCore_append10 :
    ∀ (fuel n : Nat) (ds : List Char), n < fuel →
      Nat.toDigitsCore 10 fuel n ds = Nat.toDigitsCore 10 fuel n [] ++ ds := by
  intro fuel
  induction fuel with
  | zero => intro n ds h; omega
  | succ fuel ih =>
    intro n ds h
    simp only [Nat.toDigitsCore]
    by_cases h0 : n / 10 = 0
    · rw [if_pos h0, if_pos h0]
      rfl
    · rw [if_neg h0, if_neg h0]
      have hn : 0 < n := by omega
      have hlt : n / 10 < fuel := by
        have hdiv : n / 10 < n := Nat.div_lt_self hn (by omega)
        omega
      rw [ih (n / 10) (Nat.digitChar (n % 10) :: ds) hlt,
        ih (n / 10) [Nat.digitChar (n % 10)] hlt]
      simp

/-- Decimal decoding of a digit string. -/
def decodeDec (ds : List Char) : Nat :=
  ds.foldl (fun a c => 10 * a + (c.toNat - 48)) 0

theorem digitChar_toNat : ∀ d : Nat, d < 10 → (Nat.digitChar d).toNat = 48 + d := by
  decide

theorem decodeDec_toDigitsCore :
    ∀ (fuel n : Nat), n < fuel → decodeDec (Nat.toDigitsCore 10 fuel n []) = n := by
  intro fuel
  induction fuel with
  | zero => intro n h; omega
  | succ fuel ih =>
    intro n h
    simp only [Nat.toDigitsCore]
    by_cases h0 : n / 10 = 0
    · rw [if_pos h0]
      have hm : n % 10 = n := by omega
      have h10 : n < 10 := by omega
      simp [decodeDec, hm, digitChar_toNat n h10]
    · rw [if_neg h0]
      have hn : 0 < n := by omega
      have hlt : n / 10 < fuel := by
        have hdiv : n / 10 < n := Nat.div_lt_self hn (by omega)
        omega
      rw [toDigitsCore_append10 fuel (n / 10) [Nat.digitChar (n % 10)] hlt]
      have hd : decodeDec (Nat.toDigitsCore 10 fuel (n / 10) [] ++ [Nat.digitChar (n % 10)]) =
          10 * decodeDec (Nat.toDigitsCore 10 fuel (n / 10) []) +
            ((Nat.digitChar (n % 10)).toNat - 48) := by
        simp [decodeDec, List.foldl_append]
      rw [hd, ih (n / 10) hlt, digitChar_toNat (n % 10) (by omega)]
      omega

theorem natRepr_inj (m n : Nat) (h : Nat.repr m = Nat.repr n) : m = n := by
  have hdata := congrArg String.data h
  have hm := decodeDec_toDigitsCore (m + 1) m (by omega)
  have hn := decodeDec_toDigitsCore (n + 1) n (by omega)
  have hlist : Nat.toDigits 10 m = Nat.toDigits 10 n := by
    simpa [Nat.repr, List.asString] using hdata
  unfold Nat.toDigits at hlist
  rw [← hm, ← hn, hlist]

theorem numberedName_inj (original : String) (m n : Nat)
    (h : numberedName original m = numberedName original n) : m = n := by
  unfold numberedName at h
  have hdata := congrArg String.data h
  simp only [String.data_append, List.append_assoc] at hdata
  have h1 := List.append_cancel_left hdata
  have h2 := List.append_cancel_left h1
  have h3 : (Nat.repr m).data ++ (")".data ++ (splitext original).2.data) =
      (Nat.repr n).data ++ (")".data ++ (splitext original).2.data) := by
    simpa [List.append_assoc] using h2
  have h4 := List.append_cancel_right h3
  exact natRepr_inj m n (String.ext h4)

theorem freshLoop_found (original : String) (existing : List String) :
    ∀ (fuel k0 : Nat),
      (∃ k, k0 ≤ k ∧ k < k0 + fuel ∧ numberedName original k ∉ existing) →
      ∃ n, k0 ≤ n ∧
        freshLoop original existing k0 fuel = numberedName original n ∧
        numberedName original n ∉ existing ∧
        (∀ m, k0 ≤ m → m < n → numberedName original m ∈ existing) := by
  intro fuel
  induction fuel with
  | zero =>
    rintro k0 ⟨k, h1, h2, _⟩
    omega
  | succ fuel ih =>
    rintro k0 ⟨k, hk1, hk2, hk3⟩
    by_cases hc : numberedName original k0 ∈ existing
    · have hkne : k ≠ k0 := fun he => hk3 (he ▸ hc)
      obtain ⟨n, hn1, hn2, hn3, hn4⟩ := ih (k0 + 1) ⟨k, by omega, by omega, hk3⟩
      refine ⟨n, by omega, ?_, hn3, ?_⟩
      · simp only [freshLoop, if_pos hc]
        exact hn2
      · intro m hm1 hm2
        by_cases hmk : m = k0
        · exact hmk ▸ hc
        · exact hn4 m (by omega) hm2
    · exact ⟨k0, le_refl k0, by simp [freshLoop, hc], hc, fun m h1 h2 => by omega⟩

theorem exists_fresh_counter (original : String) (existing : List String) :
    ∃ k, 1 ≤ k ∧ k < 1 + (existing.length + 1) ∧
      numberedName original k ∉ existing := by
  by_contra hcon
  push_neg at hcon
  have hsub : (List.range' 1 (existing.length + 1)).map (numberedName original) ⊆
      existing := by
    intro x hx
    rw [List.mem_map] at hx
    obtain ⟨k, hk, rfl⟩ := hx
    rw [List.mem_range'] at hk
    obtain ⟨i, hi, rfl⟩ := hk
    exact hcon _ (by omega) (by omega)
  have hnd : ((List.range' 1 (existing.length + 1)).map (numberedName original)).Nodup := by
    refine List.Nodup.map_on ?_ (List.nodup_range' 1 (existing.length + 1))
    intro m hm n hn he
    exact numberedName_inj original m n he
  have hle := (List.subperm_of_subset hnd hsub).length_le
  simp at hle

/-- The display name chosen by `add_files_to_list` for a new file is fresh
(not among the display names already in the widget), and it is the original
base name when that is free, or else `name(n)ext` for the least counter
`n ≥ 1` whose candidate is free. -/
theorem freshDisplay_spec (original : String) (existing : List String) :
    freshDisplay original existing ∉ existing ∧
    (freshDisplay original existing = original ∨
      (original ∈ existing ∧ ∃ n, 1 ≤ n ∧
        freshDisplay original existing = numberedName original n ∧
        (∀ m, 1 ≤ m → m < n → numberedName original m ∈ existing))) := by
  unfold freshDisplay
  by_cases hc : original ∈ existing
  · rw [if_pos hc]
    obtain ⟨k, h1, h2, h3⟩ := exists_fresh_counter original existing
    obtain ⟨n, hn1, hn2, hn3, hn4⟩ :=
      freshLoop_found original existing (existing.length + 1) 1 ⟨k, h1, by omega, h3⟩
    refine ⟨?_, Or.inr ⟨hc, n, hn1, hn2, hn4⟩⟩
    rw [hn2]
    exact hn3
  · rw [if_neg hc]
    exact ⟨hc, Or.inl rfl⟩

/-- C10 (implicit): `add_files_to_list` gives each newly added file a display
name distinct from every display name already in the list widget — the base
name when it is free, otherwise `name(n)ext` with the smallest counter
`n ≥ 1` avoiding a collision — and stores the full path unchanged in the new
item's data. -/
theorem C10_fresh_display_name (s : FilesState) (f : String)
    (hnew : f ∉ s.file_paths) :
    (addOneFile s f).items = s.items ++
      [⟨freshDisplay (basename f) (s.items.map ListItem.text), f⟩] ∧
    freshDisplay (basename f) (s.items.map ListItem.text) ∉
      s.items.map ListItem.text ∧
    (freshDisplay (basename f) (s.items.map ListItem.text) = basename f ∨
      (basename f ∈ s.items.map ListItem.text ∧ ∃ n, 1 ≤ n ∧
        freshDisplay (basename f) (s.items.map ListItem.text) =
          numberedName (basename f) n ∧
        (∀ m, 1 ≤ m → m < n →
          numberedName (basename f) m ∈ s.items.map ListItem.text))) := by
  refine ⟨?_, (freshDisplay_spec (basename f) (s.items.map ListItem.text)).1,
    (freshDisplay_spec (basename f) (s.items.map ListItem.text)).2⟩
  unfold addOneFile
  rw [if_neg hnew]

def c10State : FilesState :=
  ⟨["docs/a.pdf"], [⟨"a.pdf", "docs/a.pdf"⟩]⟩

theorem C10_witness :
    ("other/a.pdf" ∉ c10State.file_paths) ∧
    ((addOneFile c10State "other/a.pdf").items = c10State.items ++
      [⟨freshDisplay (basename "other/a.pdf") (c10State.items.map ListItem.text),
        "other/a.pdf"⟩] ∧
    freshDisplay (basename "other/a.pdf") (c10State.items.map ListItem.text) ∉
      c10State.items.map ListItem.text ∧
    (freshDisplay (basename "other/a.pdf") (c10State.items.map ListItem.text) =
        basename "other/a.pdf" ∨
      (basename "other/a.pdf" ∈ c10State.items.map ListItem.text ∧ ∃ n, 1 ≤ n ∧
        freshDisplay (basename "other/a.pdf") (c10State.items.map ListItem.text) =
          numberedName (basename "other/a.pdf") n ∧
        (∀ m, 1 ≤ m → m < n →
          numberedName (basename "other/a.pdf") m ∈
            c10State.items.map ListItem.text)))) :=
  ⟨by decide, C10_fresh_display_name c10State "other/a.pdf" (by decide)⟩

theorem selectedOf_subset (sel : Nat → Bool) :
    ∀ (items : List ListItem) (i : Nat) (it : ListItem),
      it ∈ selectedOf sel i items → it ∈ items := by
  intro items
  induction items with
  | nil =>
    intro i it h
    simp [selectedOf] at h
  | cons a rest ih =>
    intro i it h
    simp only [selectedOf] at h
    by_cases hs : sel i
    · rw [if_pos hs] at h
      rcases List.mem_cons.mp h with rfl | h2
      · exact List.mem_cons_self _ _
      · exact List.mem_cons_of_mem a (ih (i + 1) it h2)
    · rw [if_neg hs] at h
      exact List.mem_cons_of_mem a (ih (i + 1) it h)

theorem remainingOf_sublist (sel : Nat → Bool) :
    ∀ (items : List ListItem) (i : Nat),
      List.Sublist (remainingOf sel i items) items := by
  intro items
  induction items with
  | nil =>
    intro i
    simp [remainingOf]
  | cons a rest ih =>
    intro i
    simp only [remainingOf]
    by_cases hs : sel i
    · rw [if_pos hs]
      exact (ih (i + 1)).cons a
    · rw [if_neg hs]
      exact (ih (i + 1)).cons₂ a

theorem removePathsOf_cons_ne (d : String) :
    ∀ (selItems : List ListItem) (l : List String),
      (∀ it ∈ selItems, it.data ≠ d) →
      removePathsOf selItems (d :: l) = d :: removePathsOf selItems l := by
  intro selItems
  induction selItems with
  | nil =>
    intro l h
    rfl
  | cons it rest ih =>
    intro l h
    have hne : it.data ≠ d := h it (List.mem_cons_self it rest)
    have hrest : ∀ x ∈ rest, x.data ≠ d := fun x hx => h x (List.mem_cons_of_mem it hx)
    show removePathsOf rest (if it.data ∈ d :: l then (d :: l).erase it.data else d :: l) =
      d :: removePathsOf rest (if it.data ∈ l then l.erase it.data else l)
    by_cases hm : it.data ∈ l
    · have hm2 : it.data ∈ d :: l := List.mem_cons_of_mem d hm
      rw [if_pos hm2, if_pos hm,
        List.erase_cons_tail (by simpa using fun he => hne (Eq.symm he))]
      exact ih (l.erase it.data) hrest
    · have hm2 : it.data ∉ d :: l := by
        intro hcontra
        rcases List.mem_cons.mp hcontra with h1 | h2
        · exact hne h1
        · exact hm h2
      rw [if_neg hm2, if_neg hm]
      exact ih l hrest

theorem removePathsOf_selected (sel : Nat → Bool) :
    ∀ (items : List ListItem) (i : Nat),
      (items.map ListItem.data).Nodup →
      removePathsOf (selectedOf sel i items) (items.map ListItem.data) =
        (remainingOf sel i items).map ListItem.data := by
  intro items
  induction items with
  | nil =>
    intro i h
    rfl
  | cons it rest ih =>
    intro i h
    simp only [List.map_cons] at h
    have hnotin : it.data ∉ rest.map ListItem.data := (List.nodup_cons.mp h).1
    have hrest : (rest.map ListItem.data).Nodup := (List.nodup_cons.mp h).2
    by_cases hs : sel i
    · simp only [selectedOf, remainingOf, if_pos hs, List.map_cons]
      show removePathsOf (selectedOf sel (i + 1) rest)
          (if it.data ∈ it.data :: rest.map ListItem.data then
            (it.data :: rest.map ListItem.data).erase it.data
          else it.data :: rest.map ListItem.data) = _
      rw [if_pos (List.mem_cons_self _ _), List.erase_cons_head]
      exact ih (i + 1) hrest
    · simp only [selectedOf, remainingOf, if_neg hs, List.map_cons]
      rw [removePathsOf_cons_ne it.data (selectedOf sel (i + 1) rest)
        (rest.map ListItem.data) ?hne]
      · rw [ih (i + 1) hrest]
      case hne =>
        intro x hx heq
        apply hnotin
        rw [← heq]
        exact List.mem_map_of_mem ListItem.data (selectedOf_subset sel rest (i + 1) x hx)

theorem goodState_empty : goodState emptyFilesState :=
  ⟨List.nodup_nil, rfl⟩

theorem addOneFile_good (s : FilesState) (f : String) (h : goodState s) :
    goodState (addOneFile s f) := by
  obtain ⟨hnd, hsync⟩ := h
  unfold addOneFile
  by_cases hf : f ∈ s.file_paths
  · rw [if_pos hf]
    exact ⟨hnd, hsync⟩
  · rw [if_neg hf]
    constructor
    · rw [List.nodup_append]
      refine ⟨hnd, List.nodup_singleton f, ?_⟩
      intro a ha hfa
      simp at hfa
      subst hfa
      exact hf ha
    · simp [hsync]

theorem add_files_to_list_good :
    ∀ (files : List String) (s : FilesState), goodState s →
      goodState (PDFConverterApp.add_files_to_list s files) := by
  intro files
  induction files with
  | nil =>
    intro s h
    exact h
  | cons f rest ih =>
    intro s h
    exact ih (addOneFile s f) (addOneFile_good s f h)

theorem remove_selected_good (sel : Nat → Bool) (s : FilesState)
    (h : goodState s) : goodState (PDFConverterApp.remove_selected_files sel s) := by
  obtain ⟨hnd, hsync⟩ := h
  have hmap : (s.items.map ListItem.data).Nodup := by
    rw [hsync]
    exact hnd
  have hkey : removePathsOf (selectedOf sel 0 s.items) s.file_paths =
      (remainingOf sel 0 s.items).map ListItem.data := by
    rw [← hsync]
    exact removePathsOf_selected sel s.items 0 hmap
  constructor
  · show (removePathsOf (selectedOf sel 0 s.items) s.file_paths).Nodup
    rw [hkey]
    exact List.Nodup.sublist ((remainingOf_sublist sel s.items 0).map ListItem.data) hmap
  · show (remainingOf sel 0 s.items).map ListItem.data = _
    exact hkey.symm

theorem applyOp_good (s : FilesState) (op : FileOp) (h : goodState s) :
    goodState (applyOp s op) := by
  cases op with
  | add files => exact add_files_to_list_good files s h
  | drop direction urls =>
    show goodState (PDFConverterApp.dropEvent direction s urls)
    unfold PDFConverterApp.dropEvent
    by_cases hempty : urls.filter (extMatches direction) = []
    · simp only [hempty, if_pos]
      exact h
    · simp only [if_neg hempty]
      exact add_files_to_list_good _ s h
  | removeSelected sel => exact remove_selected_good sel s h
  | clearAll => exact goodState_empty

theorem applyOps_good (ops : List FileOp) : goodState (applyOps ops) := by
  have hgen : ∀ (l : List FileOp) (s : FilesState), goodState s →
      goodState (l.foldl applyOp s) := by
    intro l
    induction l with
    | nil => intro s h; exact h
    | cons op rest ih => intro s h; exact ih (applyOp s op) (applyOp_good s op h)
  exact hgen ops emptyFilesState goodState_empty

/-- C8 (implicit): after any sequence of add, drag-and-drop, remove-selected
and clear operations, the selected paths are pairwise distinct (duplicates
are skipped on insertion) and the widget holds exactly one row per selected
path. -/
theorem C8_file_paths_nodup_and_count (ops : List FileOp) :
    (applyOps ops).file_paths.Nodup ∧
    (applyOps ops).items.length = (applyOps ops).file_paths.length := by
  have hg := applyOps_good ops
  refine ⟨hg.1, ?_⟩
  rw [← hg.2, List.length_map]

theorem add_files_mem_iff :
    ∀ (files : List String) (s : FilesState) (f : String),
      f ∈ (PDFConverterApp.add_files_to_list s files).file_paths ↔
        f ∈ s.file_paths ∨ f ∈ files := by
  intro files
  induction files with
  | nil =>
    intro s f
    simp [PDFConverterApp.add_files_to_list]
  | cons g rest ih =>
    intro s f
    show f ∈ (PDFConverterApp.add_files_to_list (addOneFile s g) rest).file_paths ↔ _
    rw [ih]
    unfold addOneFile
    by_cases hg : g ∈ s.file_paths
    · rw [if_pos hg]
      constructor
      · rintro (h | h)
        · exact Or.inl h
        · exact Or.inr (List.mem_cons_of_mem g h)
      · rintro (h | h)
        · exact Or.inl h
        · rcases List.mem_cons.mp h with rfl | h2
          · exact Or.inl hg
          · exact Or.inr h2
    · rw [if_neg hg]
      show f ∈ s.file_paths ++ [g] ∨ f ∈ rest ↔ _
      simp only [List.mem_append, List.mem_singleton, List.mem_cons]
      tauto

/-- A filesystem on which no path refers to an existing file. -/
def noFileFS : String → Bool :=
  fun _ => false

/-- C7 (counterexample): neither `dropEvent` nor `add_files_to_list` consults
the filesystem: on a filesystem where no file exists, dropping the path
`"ghost.pdf"` still admits it into `file_paths`, so the claimed invariant
"every element of `file_paths` is a file that exists" fails. -/
theorem C7_counterexample_no_existence_check :
    (PDFConverterApp.dropEvent .pdf_to_word emptyFilesState ["ghost.pdf"]).file_paths =
      ["ghost.pdf"] ∧
    noFileFS "ghost.pdf" = false := by
  constructor
  · rfl
  · rfl

/-- C7 (amended): the add operations filter only by duplicates and, for
drag-and-drop, by lower-cased file extension; membership in `file_paths`
after an add operation is characterised without any existence condition, so
the "path exists" property is guaranteed only externally (by the native file
dialog), not enforced by the application. -/
theorem C7_admission_by_extension_and_dedup (direction : Direction)
    (s : FilesState) (urls files : List String) (f : String) :
    (f ∈ (PDFConverterApp.add_files_to_list s files).file_paths ↔
      f ∈ s.file_paths ∨ f ∈ files) ∧
    (f ∈ (PDFConverterApp.dropEvent direction s urls).file_paths ↔
      f ∈ s.file_paths ∨ (f ∈ urls ∧ extMatches direction f = true)) := by
  refine ⟨add_files_mem_iff files s f, ?_⟩
  unfold PDFConverterApp.dropEvent
  by_cases hempty : urls.filter (extMatches direction) = []
  · simp only [hempty, if_pos]
    constructor
    · exact Or.inl
    · rintro (h | ⟨hu, hm⟩)
      · exact h
      · exfalso
        have hmem : f ∈ urls.filter (extMatches direction) :=
          List.mem_filter.mpr ⟨hu, hm⟩
        rw [hempty] at hmem
        simp at hmem
  · simp only [if_neg hempty]
    rw [add_files_mem_iff]
    simp [List.mem_filter]
